import Mathlib

/-!
Verification of the weighted-dice simulation engine (`src/lib/die.ts`).

The engine is embedded shallowly: JavaScript numbers become elements of a
linear ordered field (instantiated at `ℚ` for the executable parts and at
`ℝ` where the source uses `Math.exp`, `Math.PI`, `Math.sqrt` or
`Math.pow` with a real exponent), and functions that `throw` become
`Option`-valued (`none` models the `InvalidInput` failure).  Finiteness
checks of the source (`Number.isFinite`) are vacuously true in the exact
model.  Loops are modelled by structural recursion or folds over
`List.range`, preserving the source's iteration order and state.
-/

set_option autoImplicit false

namespace WeightedDice

/-- A 3-component vector, mirroring the `Vec3` type of the source. -/
structure Vec3 (α : Type) where
  x : α
  y : α
  z : α
  deriving DecidableEq, Repr

/-- Die box dimensions `{lx, ly, lz}` as used throughout `die.ts`. -/
structure Dims (α : Type) where
  lx : α
  ly : α
  lz : α
  deriving DecidableEq, Repr

/-- The `BubbleConfig` record: enabled flag, cavity radius and center offset. -/
structure BubbleConfig (α : Type) where
  enabled : Bool
  radius : α
  offset : Vec3 α
  deriving DecidableEq, Repr

variable {α : Type} [LinearOrderedField α]

/-- Function `clamp(v, min, max)` from `die.ts`: `Math.min(Math.max(v, min), max)`. -/
def clamp (v lo hi : α) : α :=
  min (max v lo) hi

/-- Function `dot(a, b)` from `die.ts`. -/
def dot (a b : Vec3 α) : α :=
  a.x * b.x + a.y * b.y + a.z * b.z

/-- The `FACE_NORMS` table of `die.ts`: canonical unit normals of faces 1..6
(+Y, +X, +Z, -Z, -X, -Y). -/
def faceNorms (α : Type) [LinearOrderedField α] : List (Vec3 α) :=
  [⟨0, 1, 0⟩, ⟨1, 0, 0⟩, ⟨0, 0, 1⟩, ⟨0, 0, -1⟩, ⟨-1, 0, 0⟩, ⟨0, -1, 0⟩]

/-- Function `normalizeWeights` from `die.ts`: fails (`InvalidInput`) on an empty
array or a negative entry; returns the uniform vector when the sum is `≤ 0`,
otherwise divides every entry by the sum. -/
def normalizeWeights (weights : List α) : Option (List α) :=
  if weights = [] then none
  else if ∃ w ∈ weights, w < 0 then none
  else if weights.sum ≤ 0 then
    some (List.replicate weights.length ((1 : α) / (weights.length : α)))
  else
    some (weights.map (fun w => w / weights.sum))

/-- Running cumulative sums starting from accumulator `s`; `cumFrom 0 p` is
the list of partial sums produced by the `s += p[i]; cdf[i] = s` loop of
`buildCDF` (and by the on-the-fly accumulation inside `rollFromProbs`). -/
def cumFrom (s : α) : List α → List α
  | [] => []
  | w :: ws => (s + w) :: cumFrom (s + w) ws

/-- Function `buildCDF` from `die.ts`: normalizes, accumulates partial sums, and
overwrites the final entry with exactly `1`. -/
def buildCDF (probs : List α) : Option (List α) :=
  (normalizeWeights probs).map (fun p =>
    let cdf := cumFrom 0 p
    cdf.set (cdf.length - 1) 1)

/-- Index of the first entry `c` of the list with `u ≤ c`, if any: the
meaning of the `for`-loop in `invBySeqSearch` (and of the cumulative scan
loop in `rollFromProbs`). -/
def firstIdxLE (u : α) : List α → Option ℕ
  | [] => none
  | c :: cs => if u ≤ c then some 0 else (firstIdxLE u cs).map (fun i => i + 1)

/-- Function `invBySeqSearch` from `die.ts`: first index whose cumulative value is
`≥ u`, falling back to the last index. -/
def invBySeqSearch (cdf : List α) (u : α) : ℕ :=
  match firstIdxLE u cdf with
  | some i => i
  | none => cdf.length - 1

/-- Function `rollFromProbs` from `die.ts`, with the single `Math.random()` draw made
an explicit argument `u`.  Fails on an empty array, a negative entry, or a
non-positive sum; normalizes only when the sum differs from `1` by more
than `1e-9`; then scans the running cumulative sums. -/
def rollFromProbs (probs : List α) (u : α) : Option ℕ :=
  if probs = [] then none
  else if ∃ p ∈ probs, p < 0 then none
  else if probs.sum ≤ 0 then none
  else
    let q := if 1 / 1000000000 < |probs.sum - 1| then
        probs.map (fun p => p / probs.sum)
      else probs
    match firstIdxLE u (cumFrom 0 q) with
    | some i => some i
    | none => some (q.length - 1)

/-- Increment `counts[idx]` on a counts array. -/
def bumpCount (l : List ℕ) (i : ℕ) : List ℕ :=
  l.set i (l.getD i 0 + 1)

/-- Mutable state of the simulation loop in `simulateRolls`. -/
structure SimState (α : Type) where
  counts : List ℕ
  sumValues : ℕ
  runningMean : List α
  deriving Repr

/-- The record returned by `simulateRolls`. -/
structure SimResult (α : Type) where
  counts : List ℕ
  relFreq : List α
  probs : List α
  runningMean : List α
  sampleStep : ℕ
  deriving Repr

/-- One iteration of the `for (let i = 0; i < n; i++)` loop of
`simulateRolls`: draw `u`, pick the face by inverse CDF search, bump its
count, add the 1-indexed face value, and record the running mean after
every `ss`-th draw and after the final draw.  (For `ss = 0` — a fractional
`sampleStep` floored to `0` — the stride test `(i+1) % ss = 0` is false in
Lean since `(i+1) % 0 = i+1 > 0`, matching JavaScript where `(i+1) % 0` is
`NaN` and compares unequal to `0`.) -/
def simStep (cdf : List α) (us : ℕ → α) (ss nF : ℕ) (st : SimState α) (i : ℕ) :
    SimState α :=
  let idx := invBySeqSearch cdf (us i)
  let counts := bumpCount st.counts idx
  let sumValues := st.sumValues + (idx + 1)
  let runningMean :=
    if (i + 1) % ss = 0 ∨ i = nF - 1 then
      st.runningMean ++ [(sumValues : α) / ((i : α) + 1)]
    else st.runningMean
  ⟨counts, sumValues, runningMean⟩

/-- Function `simulateRolls` from `die.ts`, with the stream of uniform draws made an
explicit argument `us`.  Fails for `n ≤ 0` or `sampleStep ≤ 0`; floors both
to integers; normalizes the weights, builds one CDF, runs the loop, and
divides counts by the floored `n` for the relative frequencies. -/
def simulateRolls [FloorRing α] (weights : List α) (n sampleStep : α)
    (us : ℕ → α) : Option (SimResult α) :=
  if n ≤ 0 then none
  else
    let nF : ℕ := (⌊n⌋).toNat
    if sampleStep ≤ 0 then none
    else
      let ss : ℕ := (⌊sampleStep⌋).toNat
      (normalizeWeights weights).bind (fun probs =>
        (buildCDF probs).map (fun cdf =>
          let st := (List.range nF).foldl (simStep cdf us ss nF)
            ⟨List.replicate weights.length 0, 0, []⟩
          { counts := st.counts
            relFreq := st.counts.map (fun c => (c : α) / (nF : α))
            probs := probs
            runningMean := st.runningMean
            sampleStep := ss }))

/-- The `Math.max(dim, 0.01)` cleaning applied to die dimensions. -/
def cleanDims (d : Dims α) : Dims α :=
  ⟨max d.lx (1 / 100), max d.ly (1 / 100), max d.lz (1 / 100)⟩

/-- Function `clampBubbleToDie` from `die.ts`: for an enabled bubble, clamp the
offset into the (cleaned) half-extents, cap the radius by the largest
sphere fitting at that offset, then re-clamp the offset using the fixed
radius.  Disabled bubbles are returned unchanged. -/
def clampBubbleToDie (bubble : BubbleConfig α) (die : Dims α) : BubbleConfig α :=
  if bubble.enabled = false then bubble
  else
    let c := cleanDims die
    let hx := c.lx / 2
    let hy := c.ly / 2
    let hz := c.lz / 2
    let ox := clamp bubble.offset.x (-hx) hx
    let oy := clamp bubble.offset.y (-hy) hy
    let oz := clamp bubble.offset.z (-hz) hz
    let maxRadius := max 0 (min (hx - |ox|) (min (hy - |oy|) (hz - |oz|)))
    let clampedRadius := clamp bubble.radius 0 maxRadius
    let cx := clamp ox (-(hx - clampedRadius)) (hx - clampedRadius)
    let cy := clamp oy (-(hy - clampedRadius)) (hy - clampedRadius)
    let cz := clamp oz (-(hz - clampedRadius)) (hz - clampedRadius)
    { bubble with radius := clampedRadius, offset := ⟨cx, cy, cz⟩ }

/-- Function `applyBubblePhysics` from `die.ts`: for an enabled bubble over valid
length-6 non-negative base weights, clamp the bubble, derive the
center-of-mass shift from the cavity/solid volume ratio, and scale each
face weight by `exp(-k * (comShift ⬝ n_i))`, clamping negatives to `0`;
falls back to `baseWeights` when the adjusted sum is not positive.  A
missing or disabled bubble, a wrong-length weights array, or a clamped
radius `≤ 0` return `baseWeights` unchanged; a negative entry fails
(`InvalidInput`). -/
noncomputable def applyBubblePhysics (baseWeights : List ℝ)
    (bubble : Option (BubbleConfig ℝ)) (kBase : Option ℝ) (die : Dims ℝ) :
    Option (List ℝ) :=
  match bubble with
  | none => some baseWeights
  | some b =>
    if b.enabled = false then some baseWeights
    else if baseWeights.length ≠ 6 then some baseWeights
    else if ∃ w ∈ baseWeights, w < 0 then none
    else
      let c := cleanDims die
      let hx := c.lx / 2
      let hy := c.ly / 2
      let hz := c.lz / 2
      let eb := clampBubbleToDie b c
      let r := eb.radius
      if r ≤ 0 then some baseWeights
      else
        let vDie := c.lx * c.ly * c.lz
        let vBubble := 4 / 3 * Real.pi * r * r * r
        let vSolid := max (vDie - vBubble) (1 / 10 ^ 12)
        let alpha := vBubble / vSolid
        let comShift : Vec3 ℝ := ⟨-alpha * eb.offset.x, -alpha * eb.offset.y,
          -alpha * eb.offset.z⟩
        let minHalf := min hx (min hy hz)
        let k := kBase.getD (8 / minHalf)
        let newWeights := List.zipWith (fun w nv =>
          let out := w * Real.exp (-k * dot comShift nv)
          if out < 0 then 0 else out) baseWeights (faceNorms ℝ)
        if 0 < newWeights.sum then some newWeights else some baseWeights

/-- Function `weightsFromDimensions` from `die.ts`: clean the dimensions, form the
three pairwise face areas, raise each to `exponent`, and lay them out in
face order `[XZ, YZ, XY, XY, YZ, XZ]`.  (The finiteness check on the
exponent is vacuous in the exact model.) -/
noncomputable def weightsFromDimensions (d : Dims ℝ) (exponent : ℝ) : List ℝ :=
  let c := cleanDims d
  let areaXZ := c.lx * c.lz
  let areaYZ := c.ly * c.lz
  let areaXY := c.lx * c.ly
  [areaXZ ^ exponent, areaYZ ^ exponent, areaXY ^ exponent,
    areaXY ^ exponent, areaYZ ^ exponent, areaXZ ^ exponent]

/-- Function `dimensionsFromWeights` from `die.ts`: fails unless the weights are a
length-6 array of positive entries and the exponent is non-zero; undoes the
exponent, recovers the pairwise areas as geometric means of opposite faces,
solves for the edges, and floors each to `0.01`. -/
noncomputable def dimensionsFromWeights (weights : List ℝ) (exponent : ℝ) :
    Option (Dims ℝ) :=
  if weights.length ≠ 6 then none
  else if exponent = 0 then none
  else if ∃ w ∈ weights, w ≤ 0 then none
  else
    let invScale := fun (w : ℝ) => w ^ (1 / exponent)
    let areaXZ := Real.sqrt (invScale (weights.getD 0 0) * invScale (weights.getD 5 0))
    let areaYZ := Real.sqrt (invScale (weights.getD 1 0) * invScale (weights.getD 4 0))
    let areaXY := Real.sqrt (invScale (weights.getD 2 0) * invScale (weights.getD 3 0))
    let lx := Real.sqrt (areaXY * areaXZ / areaYZ)
    let ly := areaXY / lx
    let lz := areaXZ / lx
    some ⟨max lx (1 / 100), max ly (1 / 100), max lz (1 / 100)⟩

/-! ### Helper lemmas about `normalizeWeights` -/

lemma normalizeWeights_eq_none_iff (w : List α) :
    normalizeWeights w = none ↔ (w = [] ∨ ∃ x ∈ w, x < 0) := by
  unfold normalizeWeights
  split_ifs with h1 h2 h3 <;> simp_all

lemma not_exists_neg_of_nonneg {w : List α} (hnn : ∀ x ∈ w, 0 ≤ x) :
    ¬ ∃ x ∈ w, x < 0 := by
  push_neg
  exact hnn

lemma normalizeWeights_of_sum_nonpos {w : List α} (hne : w ≠ [])
    (hnn : ∀ x ∈ w, 0 ≤ x) (hs : w.sum ≤ 0) :
    normalizeWeights w = some (List.replicate w.length ((1 : α) / (w.length : α))) := by
  unfold normalizeWeights
  rw [if_neg hne, if_neg (not_exists_neg_of_nonneg hnn), if_pos hs]

lemma normalizeWeights_of_sum_pos {w : List α} (hne : w ≠ [])
    (hnn : ∀ x ∈ w, 0 ≤ x) (hs : 0 < w.sum) :
    normalizeWeights w = some (w.map (fun x => x / w.sum)) := by
  unfold normalizeWeights
  rw [if_neg hne, if_neg (not_exists_neg_of_nonneg hnn), if_neg (not_le.mpr hs)]

lemma sum_map_div (l : List α) (s : α) :
    (l.map (fun x => x / s)).sum = l.sum / s := by
  induction l with
  | nil => simp
  | cons x xs ih => simp [ih, add_div]

lemma all_zero_of_nonneg_sum_nonpos {w : List α} (hnn : ∀ x ∈ w, 0 ≤ x)
    (hs : w.sum ≤ 0) : ∀ x ∈ w, x = 0 := by
  intro x hx
  exact le_antisymm ((List.single_le_sum hnn x hx).trans hs) (hnn x hx)

lemma normalizeWeights_some {w p : List α} (hne : w ≠ [])
    (hnn : ∀ x ∈ w, 0 ≤ x) (h : normalizeWeights w = some p) :
    p.length = w.length ∧ (∀ x ∈ p, 0 ≤ x) ∧ p.sum = 1 := by
  have hlen : w.length ≠ 0 := fun h0 => hne (List.length_eq_zero.mp h0)
  have hlenα : ((w.length : α)) ≠ 0 := Nat.cast_ne_zero.mpr hlen
  rcases le_or_lt w.sum 0 with hs | hs
  · rw [normalizeWeights_of_sum_nonpos hne hnn hs] at h
    obtain rfl : p = List.replicate w.length ((1 : α) / (w.length : α)) :=
      (Option.some_inj.mp h).symm
    refine ⟨by simp, ?_, ?_⟩
    · intro x hx
      rw [List.eq_of_mem_replicate hx]
      positivity
    · rw [List.sum_replicate, nsmul_eq_mul, mul_one_div, div_self hlenα]
  · rw [normalizeWeights_of_sum_pos hne hnn hs] at h
    obtain rfl : p = w.map (fun x => x / w.sum) := (Option.some_inj.mp h).symm
    refine ⟨by simp, ?_, ?_⟩
    · intro x hx
      obtain ⟨y, hy, rfl⟩ := List.mem_map.mp hx
      exact div_nonneg (hnn y hy) hs.le
    · rw [sum_map_div, div_self hs.ne']

/-! ### Helper lemmas about `cumFrom`, `List.set` and `firstIdxLE` -/

lemma cumFrom_length (l : List α) : ∀ s : α, (cumFrom s l).length = l.length := by
  induction l with
  | nil => intro s; rfl
  | cons x xs ih => intro s; simp [cumFrom, ih]

lemma cumFrom_getLast? (l : List α) :
    ∀ s : α, l ≠ [] → (cumFrom s l).getLast? = some (s + l.sum) := by
  induction l with
  | nil => intro s h; exact absurd rfl h
  | cons x xs ih =>
    intro s _
    cases xs with
    | nil => simp [cumFrom]
    | cons y ys =>
      have h2 := ih (s + x) (by simp)
      rw [show cumFrom s (x :: y :: ys) = (s + x) :: cumFrom (s + x) (y :: ys) from rfl]
      rw [show cumFrom (s + x) (y :: ys) = (s + x + y) :: cumFrom (s + x + y) ys from rfl]
      rw [List.getLast?_cons_cons]
      rw [show cumFrom (s + x) (y :: ys) = (s + x + y) :: cumFrom (s + x + y) ys from rfl] at h2
      rw [h2]
      simp [add_assoc]

lemma cumFrom_chain (l : List α) :
    ∀ s : α, (∀ x ∈ l, 0 ≤ x) → List.Chain (fun a b => a ≤ b) s (cumFrom s l) := by
  induction l with
  | nil => intro s _; simp [cumFrom]
  | cons x xs ih =>
    intro s h
    rw [show cumFrom s (x :: xs) = (s + x) :: cumFrom (s + x) xs from rfl]
    exact List.Chain.cons (le_add_of_nonneg_right (h x (by simp)))
      (ih (s + x) (fun y hy => h y (List.mem_cons_of_mem x hy)))

lemma cumFrom_chain' (l : List α) (s : α) (h : ∀ x ∈ l, 0 ≤ x) :
    List.Chain' (fun a b => a ≤ b) (cumFrom s l) := by
  have h1 : List.Chain' (fun a b => a ≤ b) (s :: cumFrom s l) := cumFrom_chain l s h
  exact h1.tail

lemma set_last_of_getLast? {β : Type} (l : List β) :
    ∀ v : β, l.getLast? = some v → l.set (l.length - 1) v = l := by
  induction l with
  | nil => intro v h; simp at h
  | cons x xs ih =>
    intro v h
    cases xs with
    | nil =>
      simp only [List.getLast?_singleton, Option.some_inj] at h
      simp [h]
    | cons y ys =>
      rw [List.getLast?_cons_cons] at h
      have h2 := ih v h
      simpa using h2

lemma firstIdxLE_lt_length (u : α) (l : List α) :
    ∀ i : ℕ, firstIdxLE u l = some i → i < l.length := by
  induction l with
  | nil => intro i h; simp [firstIdxLE] at h
  | cons c cs ih =>
    intro i h
    rw [firstIdxLE] at h
    split_ifs at h with hc
    · obtain rfl : i = 0 := (Option.some_inj.mp h).symm
      simp
    · obtain ⟨j, hj, rfl⟩ := Option.map_eq_some'.mp h
      have := ih j hj
      simp only [List.length_cons]
      omega

lemma invBySeqSearch_lt_length (cdf : List α) (u : α) (h : cdf ≠ []) :
    invBySeqSearch cdf u < cdf.length := by
  unfold invBySeqSearch
  cases hf : firstIdxLE u cdf with
  | some i => exact firstIdxLE_lt_length u cdf i hf
  | none => exact Nat.sub_lt (List.length_pos.mpr h) one_pos

/-! ### Claim C1: specification of `normalizeWeights` -/

/-- C1: for a non-empty weight vector with all entries `≥ 0` (finiteness is
vacuous in the exact model), `normalizeWeights` succeeds: when the sum is
`≤ 0` it returns the uniform vector of the same length, otherwise it
divides each entry by the sum; the output sums to exactly `1` (hence within
`1e-9`) and preserves the relative ordering of the inputs.  It fails
(`InvalidInput`, modelled as `none`) exactly on an empty input or one with
a negative entry. -/
theorem normalizeWeights_spec {α : Type} [LinearOrderedField α] (w : List α) :
    (normalizeWeights w = none ↔ (w = [] ∨ ∃ x ∈ w, x < 0)) ∧
    ((w ≠ [] ∧ ∀ x ∈ w, 0 ≤ x) → ∃ p, normalizeWeights w = some p ∧
      p.length = w.length ∧
      (w.sum ≤ 0 → p = List.replicate w.length ((1 : α) / (w.length : α))) ∧
      (0 < w.sum → p = w.map (fun x => x / w.sum)) ∧
      p.sum = 1 ∧
      ∀ i j, i < w.length → j < w.length →
        (w.getD i 0 ≤ w.getD j 0 ↔ p.getD i 0 ≤ p.getD j 0)) := by
  refine ⟨normalizeWeights_eq_none_iff w, ?_⟩
  rintro ⟨hne, hnn⟩
  rcases le_or_lt w.sum 0 with hs | hs
  · have heq := normalizeWeights_of_sum_nonpos hne hnn hs
    obtain ⟨hlen, _, hsum⟩ := normalizeWeights_some hne hnn heq
    refine ⟨_, heq, hlen, fun _ => rfl, fun hpos => absurd hpos hs.not_lt, hsum, ?_⟩
    intro i j hi hj
    have hz := all_zero_of_nonneg_sum_nonpos hnn hs
    have hwi : w.getD i 0 = 0 := by
      rw [List.getD_eq_getElem w 0 hi]
      exact hz _ (List.getElem_mem hi)
    have hwj : w.getD j 0 = 0 := by
      rw [List.getD_eq_getElem w 0 hj]
      exact hz _ (List.getElem_mem hj)
    have hpi : (List.replicate w.length ((1 : α) / (w.length : α))).getD i 0 =
        (1 : α) / (w.length : α) := by
      rw [List.getD_eq_getElem (List.replicate w.length ((1 : α) / (w.length : α))) 0
        (by simpa using hi)]
      simp
    have hpj : (List.replicate w.length ((1 : α) / (w.length : α))).getD j 0 =
        (1 : α) / (w.length : α) := by
      rw [List.getD_eq_getElem (List.replicate w.length ((1 : α) / (w.length : α))) 0
        (by simpa using hj)]
      simp
    rw [hwi, hwj, hpi, hpj]
    simp
  · have heq := normalizeWeights_of_sum_pos hne hnn hs
    obtain ⟨hlen, _, hsum⟩ := normalizeWeights_some hne hnn heq
    refine ⟨_, heq, hlen, fun hnp => absurd hs hnp.not_lt, fun _ => rfl, hsum, ?_⟩
    intro i j hi hj
    have hpi : (w.map (fun x => x / w.sum)).getD i 0 = w.getD i 0 / w.sum := by
      rw [List.getD_eq_getElem (w.map (fun x => x / w.sum)) 0 (by simpa using hi),
        List.getD_eq_getElem w 0 hi]
      simp
    have hpj : (w.map (fun x => x / w.sum)).getD j 0 = w.getD j 0 / w.sum := by
      rw [List.getD_eq_getElem (w.map (fun x => x / w.sum)) 0 (by simpa using hj),
        List.getD_eq_getElem w 0 hj]
      simp
    rw [hpi, hpj, div_le_div_iff_of_pos_right hs]

/-- Witness for C1 at the concrete input `[1, 3]`. -/
theorem normalizeWeights_spec_witness :
    (([(1 : ℚ), 3] ≠ [] ∧ ∀ x ∈ [(1 : ℚ), 3], 0 ≤ x)) ∧
    (∃ p, normalizeWeights [(1 : ℚ), 3] = some p ∧
      p.length = ([(1 : ℚ), 3]).length ∧
      (([(1 : ℚ), 3]).sum ≤ 0 →
        p = List.replicate ([(1 : ℚ), 3]).length
          ((1 : ℚ) / (([(1 : ℚ), 3]).length : ℚ))) ∧
      (0 < ([(1 : ℚ), 3]).sum →
        p = ([(1 : ℚ), 3]).map (fun x => x / ([(1 : ℚ), 3]).sum)) ∧
      p.sum = 1 ∧
      ∀ i j, i < ([(1 : ℚ), 3]).length → j < ([(1 : ℚ), 3]).length →
        (([(1 : ℚ), 3]).getD i 0 ≤ ([(1 : ℚ), 3]).getD j 0 ↔
          p.getD i 0 ≤ p.getD j 0)) :=
  ⟨⟨by decide, by decide⟩,
    (normalizeWeights_spec [(1 : ℚ), 3]).2 ⟨by decide, by decide⟩⟩

/-! ### Claim C6: `buildCDF` is non-decreasing with final entry exactly 1 -/

/-- C6: for every probability vector (non-empty, entries `≥ 0`), `buildCDF`
succeeds and its output is non-decreasing with last element exactly `1`. -/
theorem buildCDF_monotone_last_one {α : Type} [LinearOrderedField α]
    (probs : List α) (h1 : probs ≠ []) (h2 : ∀ x ∈ probs, 0 ≤ x) :
    ∃ cdf, buildCDF probs = some cdf ∧
      List.Chain' (fun a b => a ≤ b) cdf ∧ cdf.getLast? = some 1 := by
  cases hn : normalizeWeights probs with
  | none =>
    rw [normalizeWeights_eq_none_iff] at hn
    rcases hn with h | ⟨x, hx, hxneg⟩
    · exact absurd h h1
    · exact absurd hxneg (not_lt.mpr (h2 x hx))
  | some p =>
    obtain ⟨hlen, hnn, hsum⟩ := normalizeWeights_some h1 h2 hn
    have hpne : p ≠ [] := by
      intro h
      exact h1 (List.length_eq_zero.mp (by rw [← hlen, h, List.length_nil]))
    have hlast : (cumFrom 0 p).getLast? = some 1 := by
      rw [cumFrom_getLast? p 0 hpne, zero_add, hsum]
    have hset : (cumFrom 0 p).set ((cumFrom 0 p).length - 1) 1 = cumFrom 0 p :=
      set_last_of_getLast? _ 1 hlast
    refine ⟨cumFrom 0 p, ?_, cumFrom_chain' p 0 hnn, hlast⟩
    unfold buildCDF
    rw [hn, Option.map_some']
    simp only [hset]

/-- Witness for C6 at the concrete input `[1, 1]`. -/
theorem buildCDF_monotone_last_one_witness :
    (([(1 : ℚ), 1] ≠ []) ∧ (∀ x ∈ [(1 : ℚ), 1], 0 ≤ x)) ∧
    (∃ cdf, buildCDF [(1 : ℚ), 1] = some cdf ∧
      List.Chain' (fun a b => a ≤ b) cdf ∧ cdf.getLast? = some 1) :=
  ⟨⟨by decide, by decide⟩,
    buildCDF_monotone_last_one [(1 : ℚ), 1] (by decide) (by decide)⟩

/-! ### Helper lemmas about `clamp` and `clampBubbleToDie` -/

lemma clamp_le (v lo hi : α) : clamp v lo hi ≤ hi :=
  min_le_right _ _

lemma le_clamp (v lo hi : α) (h : lo ≤ hi) : lo ≤ clamp v lo hi :=
  le_min (le_max_right v lo) h

lemma clamp_eq_self (v lo hi : α) (h1 : lo ≤ v) (h2 : v ≤ hi) :
    clamp v lo hi = v := by
  unfold clamp
  rw [max_eq_left h1, min_eq_left h2]

lemma abs_clamp_le {v h : α} (h0 : 0 ≤ h) : |clamp v (-h) h| ≤ h :=
  abs_le.mpr ⟨le_clamp v (-h) h (neg_le_self h0), clamp_le v (-h) h⟩

lemma half_clean_pos (x : α) : (0 : α) < max x (1 / 100) / 2 :=
  div_pos (lt_of_lt_of_le (by norm_num) (le_max_right x (1 / 100))) two_pos

/-- The clamped bubble of an enabled bubble is enabled, has non-negative
radius, and per axis its offset magnitude is at most the half-extent minus
the radius. -/
lemma clampBubbleToDie_props (b : BubbleConfig α) (d : Dims α)
    (hb : b.enabled = true) :
    (clampBubbleToDie b d).enabled = true ∧
    0 ≤ (clampBubbleToDie b d).radius ∧
    |(clampBubbleToDie b d).offset.x| ≤
      (cleanDims d).lx / 2 - (clampBubbleToDie b d).radius ∧
    |(clampBubbleToDie b d).offset.y| ≤
      (cleanDims d).ly / 2 - (clampBubbleToDie b d).radius ∧
    |(clampBubbleToDie b d).offset.z| ≤
      (cleanDims d).lz / 2 - (clampBubbleToDie b d).radius := by
  simp only [clampBubbleToDie, hb, Bool.true_eq_false, if_false, cleanDims]
  set hx := max d.lx (1 / 100) / 2 with hhx
  set hy := max d.ly (1 / 100) / 2 with hhy
  set hz := max d.lz (1 / 100) / 2 with hhz
  set ox := clamp b.offset.x (-hx) hx with hox
  set oy := clamp b.offset.y (-hy) hy with hoy
  set oz := clamp b.offset.z (-hz) hz with hoz
  set m3 := min (hx - |ox|) (min (hy - |oy|) (hz - |oz|)) with hm3
  set mr := max 0 m3 with hmr
  set r := clamp b.radius 0 mr with hr
  have hr0 : 0 ≤ r := le_clamp b.radius 0 mr (le_max_left 0 m3)
  have hrmr : r ≤ mr := clamp_le b.radius 0 mr
  have hrhx : r ≤ hx := hrmr.trans (max_le (half_clean_pos d.lx).le
    ((min_le_left _ _).trans (sub_le_self hx (abs_nonneg ox))))
  have hrhy : r ≤ hy := hrmr.trans (max_le (half_clean_pos d.ly).le
    (((min_le_right _ _).trans (min_le_left _ _)).trans
      (sub_le_self hy (abs_nonneg oy))))
  have hrhz : r ≤ hz := hrmr.trans (max_le (half_clean_pos d.lz).le
    (((min_le_right _ _).trans (min_le_right _ _)).trans
      (sub_le_self hz (abs_nonneg oz))))
  refine ⟨trivial, hr0, ?_, ?_, ?_⟩
  · exact abs_clamp_le (sub_nonneg.mpr hrhx)
  · exact abs_clamp_le (sub_nonneg.mpr hrhy)
  · exact abs_clamp_le (sub_nonneg.mpr hrhz)

/-- A bubble already satisfying the in-box invariant is a fixed point of
`clampBubbleToDie`. -/
lemma clampBubbleToDie_fix (b : BubbleConfig α) (d : Dims α)
    (hb : b.enabled = true) (h0 : 0 ≤ b.radius)
    (hx : |b.offset.x| ≤ (cleanDims d).lx / 2 - b.radius)
    (hy : |b.offset.y| ≤ (cleanDims d).ly / 2 - b.radius)
    (hz : |b.offset.z| ≤ (cleanDims d).lz / 2 - b.radius) :
    clampBubbleToDie b d = b := by
  obtain ⟨en, rad, ⟨vx, vy, vz⟩⟩ := b
  simp only [cleanDims] at hx hy hz
  simp at hb h0 hx hy hz
  subst hb
  simp only [clampBubbleToDie, cleanDims, Bool.true_eq_false, if_false]
  have hax := abs_le.mp hx
  have hay := abs_le.mp hy
  have haz := abs_le.mp hz
  rw [clamp_eq_self vx (-(max d.lx (1 / 100) / 2)) (max d.lx (1 / 100) / 2)
      (by linarith [hax.1]) (by linarith [hax.2]),
    clamp_eq_self vy (-(max d.ly (1 / 100) / 2)) (max d.ly (1 / 100) / 2)
      (by linarith [hay.1]) (by linarith [hay.2]),
    clamp_eq_self vz (-(max d.lz (1 / 100) / 2)) (max d.lz (1 / 100) / 2)
      (by linarith [haz.1]) (by linarith [haz.2])]
  have hrm : rad ≤ max 0 (min (max d.lx (1 / 100) / 2 - |vx|)
      (min (max d.ly (1 / 100) / 2 - |vy|) (max d.lz (1 / 100) / 2 - |vz|))) :=
    le_trans (le_min (by linarith) (le_min (by linarith) (by linarith)))
      (le_max_right 0 _)
  rw [clamp_eq_self rad 0 _ h0 hrm,
    clamp_eq_self vx (-(max d.lx (1 / 100) / 2 - rad)) (max d.lx (1 / 100) / 2 - rad)
      (by linarith [hax.1]) (by linarith [hax.2]),
    clamp_eq_self vy (-(max d.ly (1 / 100) / 2 - rad)) (max d.ly (1 / 100) / 2 - rad)
      (by linarith [hay.1]) (by linarith [hay.2]),
    clamp_eq_self vz (-(max d.lz (1 / 100) / 2 - rad)) (max d.lz (1 / 100) / 2 - rad)
      (by linarith [haz.1]) (by linarith [haz.2])]

/-! ### Claim C3: the clamped bubble fits inside the box -/

/-- C3: for an enabled bubble, `clampBubbleToDie` yields a non-negative
radius and, on every axis, `|offset| + radius` at most the half-extent of
the cleaned box (exactly, which implies the claimed floating tolerance);
a disabled bubble is returned unchanged. -/
theorem clampBubbleToDie_inBox (b : BubbleConfig α) (d : Dims α) :
    (b.enabled = false → clampBubbleToDie b d = b) ∧
    (b.enabled = true →
      0 ≤ (clampBubbleToDie b d).radius ∧
      |(clampBubbleToDie b d).offset.x| + (clampBubbleToDie b d).radius ≤
        (cleanDims d).lx / 2 ∧
      |(clampBubbleToDie b d).offset.y| + (clampBubbleToDie b d).radius ≤
        (cleanDims d).ly / 2 ∧
      |(clampBubbleToDie b d).offset.z| + (clampBubbleToDie b d).radius ≤
        (cleanDims d).lz / 2) := by
  constructor
  · intro hb
    simp [clampBubbleToDie, hb]
  · intro hb
    obtain ⟨_, h0, hxp, hyp, hzp⟩ := clampBubbleToDie_props b d hb
    exact ⟨h0, by linarith, by linarith, by linarith⟩

/-- Witness for C3: an enabled bubble protruding on the x-axis, and a
disabled bubble, both on the unit box. -/
theorem clampBubbleToDie_inBox_witness :
    (0 ≤ (clampBubbleToDie (⟨true, 2, ⟨3, 0, 0⟩⟩ : BubbleConfig ℚ)
        ⟨1, 1, 1⟩).radius ∧
      |(clampBubbleToDie (⟨true, 2, ⟨3, 0, 0⟩⟩ : BubbleConfig ℚ)
        ⟨1, 1, 1⟩).offset.x| +
        (clampBubbleToDie (⟨true, 2, ⟨3, 0, 0⟩⟩ : BubbleConfig ℚ)
          ⟨1, 1, 1⟩).radius ≤ (cleanDims (⟨1, 1, 1⟩ : Dims ℚ)).lx / 2 ∧
      |(clampBubbleToDie (⟨true, 2, ⟨3, 0, 0⟩⟩ : BubbleConfig ℚ)
        ⟨1, 1, 1⟩).offset.y| +
        (clampBubbleToDie (⟨true, 2, ⟨3, 0, 0⟩⟩ : BubbleConfig ℚ)
          ⟨1, 1, 1⟩).radius ≤ (cleanDims (⟨1, 1, 1⟩ : Dims ℚ)).ly / 2 ∧
      |(clampBubbleToDie (⟨true, 2, ⟨3, 0, 0⟩⟩ : BubbleConfig ℚ)
        ⟨1, 1, 1⟩).offset.z| +
        (clampBubbleToDie (⟨true, 2, ⟨3, 0, 0⟩⟩ : BubbleConfig ℚ)
          ⟨1, 1, 1⟩).radius ≤ (cleanDims (⟨1, 1, 1⟩ : Dims ℚ)).lz / 2) ∧
    clampBubbleToDie (⟨false, 7, ⟨9, 9, 9⟩⟩ : BubbleConfig ℚ) ⟨1, 1, 1⟩ =
      ⟨false, 7, ⟨9, 9, 9⟩⟩ :=
  ⟨(clampBubbleToDie_inBox (⟨true, 2, ⟨3, 0, 0⟩⟩ : BubbleConfig ℚ)
      ⟨1, 1, 1⟩).2 rfl,
    (clampBubbleToDie_inBox (⟨false, 7, ⟨9, 9, 9⟩⟩ : BubbleConfig ℚ)
      ⟨1, 1, 1⟩).1 rfl⟩

/-! ### Claim C9: `clampBubbleToDie` is idempotent -/

/-- C9: applying `clampBubbleToDie` twice with the same dimensions equals
applying it once, for every bubble (enabled or not) and every box. -/
theorem clampBubbleToDie_idem (b : BubbleConfig α) (d : Dims α) :
    clampBubbleToDie (clampBubbleToDie b d) d = clampBubbleToDie b d := by
  cases hb : b.enabled with
  | false =>
    have h1 : clampBubbleToDie b d = b := by simp [clampBubbleToDie, hb]
    rw [h1, h1]
  | true =>
    obtain ⟨he, h0, hxp, hyp, hzp⟩ := clampBubbleToDie_props b d hb
    exact clampBubbleToDie_fix _ d he h0 hxp hyp hzp

/-! ### Claim C5: `rollFromProbs` versus `buildCDF` + `invBySeqSearch` -/

/-- C5 counterexample: at `probs = [1/2, 1/2 - 10⁻¹⁰]` — whose sum is within
the `1e-9` tolerance of `1` but not exactly `1` — and `u = 1/2 + 10⁻¹¹`,
the one-step `rollFromProbs` path returns index `1` while the
`buildCDF` + `invBySeqSearch` composition returns index `0`: the two
sampling paths do not agree for all inputs. -/
theorem rollFromProbs_cdf_paths_disagree :
    rollFromProbs ([1/2, 1/2 - 1/10000000000] : List ℚ)
      (1/2 + 1/100000000000) = some 1 ∧
    (buildCDF ([1/2, 1/2 - 1/10000000000] : List ℚ)).map
      (fun cdf => invBySeqSearch cdf (1/2 + 1/100000000000)) = some 0 := by
  constructor
  · norm_num [rollFromProbs, cumFrom, firstIdxLE, abs]
    simp
  · have hnorm : normalizeWeights ([1/2, 1/2 - 1/10000000000] : List ℚ) =
        some [(1/2) / (1 - 1/10000000000),
          (1/2 - 1/10000000000) / (1 - 1/10000000000)] := by
      norm_num [normalizeWeights]
      simp
    rw [buildCDF, hnorm, Option.map_some', Option.map_some']
    norm_num [cumFrom, invBySeqSearch, firstIdxLE]

/-- C5 (amended): the two sampling paths agree, for every `u`, on every
probability vector with non-negative entries summing to exactly `1`; they
can differ only when the sum is within `1e-9` of `1` without being `1`. -/
theorem rollFromProbs_eq_cdf_path {α : Type} [LinearOrderedField α]
    (p : List α) (u : α) (hnn : ∀ x ∈ p, 0 ≤ x) (hsum : p.sum = 1) :
    rollFromProbs p u = (buildCDF p).map (fun cdf => invBySeqSearch cdf u) := by
  have hne : p ≠ [] := by
    intro h
    rw [h] at hsum
    simp at hsum
  have hspos : (0 : α) < p.sum := by
    rw [hsum]
    exact one_pos
  have hnorm := normalizeWeights_of_sum_pos hne hnn hspos
  rw [hsum] at hnorm
  simp only [div_one, List.map_id'] at hnorm
  have hlast : (cumFrom 0 p).getLast? = some 1 := by
    rw [cumFrom_getLast? p 0 hne, zero_add, hsum]
  have hset := set_last_of_getLast? (cumFrom 0 p) 1 hlast
  have hcdf : buildCDF p = some (cumFrom 0 p) := by
    unfold buildCDF
    rw [hnorm, Option.map_some']
    simp only [hset]
  have hq : ¬ ((1 : α)/1000000000 < |p.sum - 1|) := by
    rw [hsum]
    norm_num
  rw [hcdf, Option.map_some']
  simp only [rollFromProbs, if_neg hne, if_neg (not_exists_neg_of_nonneg hnn),
    if_neg (not_le.mpr hspos), if_neg hq]
  unfold invBySeqSearch
  cases hf : firstIdxLE u (cumFrom 0 p) with
  | some i => simp [hf]
  | none => simp [hf, cumFrom_length]

/-- Witness for the amended C5 at `p = [1, 0]`, `u = 3/4`. -/
theorem rollFromProbs_eq_cdf_path_witness :
    ((∀ x ∈ [(1 : ℚ), 0], 0 ≤ x) ∧ ([(1 : ℚ), 0]).sum = 1) ∧
    rollFromProbs [(1 : ℚ), 0] (3/4) =
      (buildCDF [(1 : ℚ), 0]).map (fun cdf => invBySeqSearch cdf (3/4)) :=
  ⟨⟨by decide, by simp⟩,
    rollFromProbs_eq_cdf_path [(1 : ℚ), 0] (3/4) (by decide) (by simp)⟩

/-! ### Helper lemmas for the simulation loop -/

lemma bumpCount_length (l : List ℕ) (i : ℕ) : (bumpCount l i).length = l.length := by
  simp [bumpCount]

lemma bumpCount_sum (l : List ℕ) : ∀ i, i < l.length →
    (bumpCount l i).sum = l.sum + 1 := by
  induction l with
  | nil => intro i h; simp at h
  | cons x xs ih =>
    intro i h
    cases i with
    | zero =>
      simp [bumpCount]
      omega
    | succ j =>
      have h2 := ih j (by simpa using h)
      simp [bumpCount] at h2 ⊢
      omega

lemma buildCDF_some (probs : List α) (hne : probs ≠ [])
    (hnn : ∀ x ∈ probs, 0 ≤ x) :
    ∃ cdf, buildCDF probs = some cdf ∧ cdf.length = probs.length := by
  cases hn : normalizeWeights probs with
  | none =>
    rw [normalizeWeights_eq_none_iff] at hn
    rcases hn with h | ⟨x, hx, hxneg⟩
    · exact absurd h hne
    · exact absurd hxneg (not_lt.mpr (hnn x hx))
  | some p =>
    obtain ⟨hlen, _, _⟩ := normalizeWeights_some hne hnn hn
    refine ⟨(cumFrom 0 p).set ((cumFrom 0 p).length - 1) 1, ?_, ?_⟩
    · unfold buildCDF
      rw [hn, Option.map_some']
    · rw [List.length_set, cumFrom_length, hlen]

/-- Loop invariant of `simulateRolls`: after `m` iterations the counts list
keeps its length and its total equals the number of iterations performed. -/
lemma simLoop_counts (cdf : List α) (us : ℕ → α) (ss nF : ℕ)
    (init : SimState α) (hcdf : cdf ≠ [])
    (hlen : cdf.length = init.counts.length) :
    ∀ m : ℕ,
      ((List.range m).foldl (simStep cdf us ss nF) init).counts.length =
        init.counts.length ∧
      ((List.range m).foldl (simStep cdf us ss nF) init).counts.sum =
        init.counts.sum + m := by
  intro m
  induction m with
  | zero => simp
  | succ k ih =>
    rw [List.range_succ, List.foldl_append, List.foldl_cons, List.foldl_nil]
    set st := (List.range k).foldl (simStep cdf us ss nF) init with hst
    have hidx : invBySeqSearch cdf (us k) < st.counts.length := by
      rw [ih.1, ← hlen]
      exact invBySeqSearch_lt_length cdf (us k) hcdf
    constructor
    · simp only [simStep]
      rw [bumpCount_length]
      exact ih.1
    · simp only [simStep]
      rw [bumpCount_sum st.counts _ hidx, ih.2]
      omega

/-! ### Claim C2: `simulateRolls` counts sum to the trial count -/

/-- C2: for a valid length-6 weight vector, positive `n` and valid stride,
and any stream of draws, `simulateRolls` succeeds; the per-face counts are
natural numbers (hence non-negative), one per face, summing to exactly the
floored trial count, and the relative frequencies are the counts divided by
that effective trial count. -/
theorem simulateRolls_counts_spec {α : Type} [LinearOrderedField α]
    [FloorRing α] (w : List α) (n sampleStep : α) (us : ℕ → α)
    (hw : w.length = 6) (hnn : ∀ x ∈ w, 0 ≤ x) (hn : 0 < n)
    (hss : 0 < sampleStep) :
    ∃ r, simulateRolls w n sampleStep us = some r ∧
      r.counts.length = 6 ∧
      r.counts.sum = (⌊n⌋).toNat ∧
      r.relFreq = r.counts.map (fun c => (c : α) / (((⌊n⌋).toNat : ℕ) : α)) := by
  have hne : w ≠ [] := by
    intro h
    rw [h] at hw
    simp at hw
  cases hno : normalizeWeights w with
  | none =>
    rw [normalizeWeights_eq_none_iff] at hno
    rcases hno with h | ⟨x, hx, hxneg⟩
    · exact absurd h hne
    · exact absurd hxneg (not_lt.mpr (hnn x hx))
  | some probs =>
    obtain ⟨hplen, hpnn, _⟩ := normalizeWeights_some hne hnn hno
    have hpne : probs ≠ [] := by
      intro h
      rw [h] at hplen
      rw [← hplen] at hw
      simp at hw
    obtain ⟨cdf, hcdf, hclen⟩ := buildCDF_some probs hpne hpnn
    have hcne : cdf ≠ [] := by
      intro h
      rw [h] at hclen
      exact hpne (List.length_eq_zero.mp hclen.symm)
    have hinitlen : cdf.length = (List.replicate w.length (0 : ℕ)).length := by
      rw [hclen, hplen, List.length_replicate]
    have hloop := simLoop_counts cdf us ((⌊sampleStep⌋).toNat) ((⌊n⌋).toNat)
      ⟨List.replicate w.length 0, 0, []⟩ hcne hinitlen ((⌊n⌋).toNat)
    simp only [List.length_replicate, List.sum_replicate, smul_zero, zero_add]
      at hloop
    simp only [simulateRolls, if_neg (not_le.mpr hn), if_neg (not_le.mpr hss),
      hno, Option.some_bind, hcdf, Option.map_some']
    exact ⟨_, rfl, by rw [hloop.1, hw], hloop.2, rfl⟩

/-- Witness for C2 at the uniform vector, `n = 3`, stride `10`, draws all
`1/2`. -/
theorem simulateRolls_counts_spec_witness :
    (([(1 : ℚ), 1, 1, 1, 1, 1]).length = 6 ∧
      (∀ x ∈ [(1 : ℚ), 1, 1, 1, 1, 1], 0 ≤ x) ∧
      (0 : ℚ) < 3 ∧ (0 : ℚ) < 10) ∧
    (∃ r, simulateRolls [(1 : ℚ), 1, 1, 1, 1, 1] 3 10 (fun _ => 1/2) = some r ∧
      r.counts.length = 6 ∧
      r.counts.sum = (⌊(3 : ℚ)⌋).toNat ∧
      r.relFreq = r.counts.map (fun c => (c : ℚ) / (((⌊(3 : ℚ)⌋).toNat : ℕ) : ℚ))) :=
  ⟨⟨by decide, by decide, by decide, by decide⟩,
    simulateRolls_counts_spec [(1 : ℚ), 1, 1, 1, 1, 1] 3 10 (fun _ => 1/2)
      (by decide) (by decide) (by decide) (by decide)⟩

/-! ### Claim C8: acceptance/rejection of `n` and `sampleStep` -/

/-- C8 (behaviour at the failing input): `simulateRolls` accepts
`sampleStep = 1/2` — which the specification (and the code's own error
message) requires to fail with `InvalidInput` — flooring the stride to `0`,
so the returned record carries `sampleStep = 0`. -/
theorem simulateRolls_accepts_fractional_step :
    ∃ r, simulateRolls ([1, 1, 1, 1, 1, 1] : List ℚ) 10 (1/2)
        (fun _ => 1/2) = some r ∧ r.sampleStep = 0 := by
  have hfloor : (⌊(1/2 : ℚ)⌋) = 0 := by
    rw [Int.floor_eq_zero_iff]
    constructor <;> norm_num
  have hne : ([1, 1, 1, 1, 1, 1] : List ℚ) ≠ [] := by simp
  have hnn : ∀ x ∈ ([1, 1, 1, 1, 1, 1] : List ℚ), 0 ≤ x := by decide
  cases hno : normalizeWeights ([1, 1, 1, 1, 1, 1] : List ℚ) with
  | none =>
    rw [normalizeWeights_eq_none_iff] at hno
    rcases hno with h | ⟨x, hx, hxneg⟩
    · exact absurd h hne
    · exact absurd hxneg (not_lt.mpr (hnn x hx))
  | some probs =>
    obtain ⟨hplen, hpnn, _⟩ := normalizeWeights_some hne hnn hno
    have hpne : probs ≠ [] := by
      intro h
      rw [h] at hplen
      simp at hplen
    obtain ⟨cdf, hcdf, _⟩ := buildCDF_some probs hpne hpnn
    simp only [simulateRolls, hno, Option.some_bind, hcdf, Option.map_some']
    norm_num [hfloor]

/-! ### Helper lemmas for the bubble physics claims -/

lemma mem_zipWith_nonneg {β γ : Type} {f : β → γ → α} (hf : ∀ a b, 0 ≤ f a b) :
    ∀ (l1 : List β) (l2 : List γ), ∀ x ∈ List.zipWith f l1 l2, 0 ≤ x := by
  intro l1
  induction l1 with
  | nil => intro l2 x hx; simp at hx
  | cons a as ih =>
    intro l2 x hx
    cases l2 with
    | nil => simp at hx
    | cons b bs =>
      simp only [List.zipWith_cons_cons, List.mem_cons] at hx
      rcases hx with rfl | hx
      · exact hf a b
      · exact ih bs x hx

lemma ite_neg_zero_eq_max (x : α) : (if x < 0 then (0 : α) else x) = max 0 x := by
  rcases lt_or_le x 0 with h | h
  · rw [if_pos h, max_eq_left h.le]
  · rw [if_neg (not_lt.mpr h), max_eq_right h]

lemma sum_pos_iff_not_all_nonpos (l : List α) (h : ∀ x ∈ l, 0 ≤ x) :
    0 < l.sum ↔ ¬ ∀ x ∈ l, x ≤ 0 := by
  constructor
  · intro hs hall
    have hz : ∀ x ∈ l, x = 0 := fun x hx => le_antisymm (hall x hx) (h x hx)
    rw [List.sum_eq_zero hz] at hs
    exact lt_irrefl 0 hs
  · intro hna
    push_neg at hna
    obtain ⟨x, hx, hxpos⟩ := hna
    exact lt_of_lt_of_le hxpos (List.single_le_sum h x hx)

lemma fallback_guard_eq (l bw : List α) (hl : ∀ x ∈ l, 0 ≤ x) :
    (if 0 < l.sum then some l else some bw) =
      some (if ∀ x ∈ l, x ≤ 0 then bw else l) := by
  split_ifs with h1 h2 h3
  · exact absurd h2 ((sum_pos_iff_not_all_nonpos l hl).mp h1)
  · rfl
  · rfl
  · exact absurd ((sum_pos_iff_not_all_nonpos l hl).mpr h3) h1

/-! ### Claim C10: `applyBubblePhysics` preserves the weight invariant -/

/-- C10: for length-6 base weights with entries `≥ 0`, every path of
`applyBubblePhysics` (missing/disabled bubble, zero clamped radius, the
exponential-multiplier path with its clamp of negatives to `0`, and the
all-zero fallback) returns a length-6 vector of entries `≥ 0`. -/
theorem applyBubblePhysics_nonneg (bw : List ℝ)
    (bubble : Option (BubbleConfig ℝ)) (kBase : Option ℝ) (die : Dims ℝ)
    (hlen : bw.length = 6) (hnn : ∀ x ∈ bw, 0 ≤ x) :
    ∃ l, applyBubblePhysics bw bubble kBase die = some l ∧
      l.length = 6 ∧ ∀ x ∈ l, 0 ≤ x := by
  cases bubble with
  | none => exact ⟨bw, rfl, hlen, hnn⟩
  | some b =>
    by_cases hb : b.enabled = false
    · refine ⟨bw, ?_, hlen, hnn⟩
      simp only [applyBubblePhysics, if_pos hb]
    · have hlen6 : ¬ (bw.length ≠ 6) := by simp [hlen]
      have hneg : ¬ ∃ w ∈ bw, w < 0 := not_exists_neg_of_nonneg hnn
      simp only [applyBubblePhysics, if_neg hb, if_neg hlen6, if_neg hneg]
      split_ifs with h1 h2
      · exact ⟨bw, rfl, hlen, hnn⟩
      · refine ⟨_, rfl, ?_, ?_⟩
        · rw [List.length_zipWith, hlen]
          rfl
        · refine mem_zipWith_nonneg (fun a v => ?_) bw (faceNorms ℝ)
          dsimp only
          split_ifs with ho
          · exact le_refl 0
          · exact le_of_not_lt ho
      · exact ⟨bw, rfl, hlen, hnn⟩

/-- Witness for C10 at the uniform base weights with no bubble. -/
theorem applyBubblePhysics_nonneg_witness :
    (([(1 : ℝ), 1, 1, 1, 1, 1]).length = 6 ∧
      ∀ x ∈ [(1 : ℝ), 1, 1, 1, 1, 1], 0 ≤ x) ∧
    (∃ l, applyBubblePhysics [(1 : ℝ), 1, 1, 1, 1, 1] none none ⟨1, 1, 1⟩ =
        some l ∧ l.length = 6 ∧ ∀ x ∈ l, 0 ≤ x) :=
  ⟨⟨rfl, by simp⟩,
    applyBubblePhysics_nonneg [(1 : ℝ), 1, 1, 1, 1, 1] none none ⟨1, 1, 1⟩
      rfl (by simp)⟩

/-! ### Claim C4: the exponential bubble formula -/

/-- The spec formula for the bubble adjustment (§4.4): per face `i`,
`max(0, baseWeight_i · exp(−k·dh_i))` with `dh_i = comShift ⬝ n_i`,
`comShift = −(vBubble/vSolid) · offset` of the clamped bubble,
`vBubble = 4/3·π·r³`, `vSolid = max(vDie − vBubble, 1e-12)`, and
`k = kOverride` when given, else `8 / min(hx,hy,hz)`.  This is the
spec-side definition used to state the refinement claim C4 against
`applyBubblePhysics`. -/
noncomputable def bubbleSpecWeights (baseWeights : List ℝ) (b : BubbleConfig ℝ)
    (kBase : Option ℝ) (die : Dims ℝ) : List ℝ :=
  let c := cleanDims die
  let hx := c.lx / 2
  let hy := c.ly / 2
  let hz := c.lz / 2
  let eb := clampBubbleToDie b c
  let r := eb.radius
  let vDie := c.lx * c.ly * c.lz
  let vBubble := 4 / 3 * Real.pi * r * r * r
  let vSolid := max (vDie - vBubble) (1 / 10 ^ 12)
  let alpha := vBubble / vSolid
  let comShift : Vec3 ℝ := ⟨-alpha * eb.offset.x, -alpha * eb.offset.y,
    -alpha * eb.offset.z⟩
  let minHalf := min hx (min hy hz)
  let k := kBase.getD (8 / minHalf)
  List.zipWith (fun w nv => max 0 (w * Real.exp (-k * dot comShift nv)))
    baseWeights (faceNorms ℝ)

/-- C4: for an enabled bubble with positive clamped radius over valid
length-6 non-negative base weights, `applyBubblePhysics` returns exactly
the spec formula `max(0, baseWeight_i · exp(−k·dh_i))` — falling back to
`baseWeights` unmodified precisely when every formula entry is `≤ 0`. -/
theorem applyBubblePhysics_formula (bw : List ℝ) (b : BubbleConfig ℝ)
    (kBase : Option ℝ) (die : Dims ℝ) (hb : b.enabled = true)
    (hlen : bw.length = 6) (hnn : ∀ x ∈ bw, 0 ≤ x)
    (hr : 0 < (clampBubbleToDie b (cleanDims die)).radius) :
    applyBubblePhysics bw (some b) kBase die =
      some (if ∀ x ∈ bubbleSpecWeights bw b kBase die, x ≤ 0 then bw
        else bubbleSpecWeights bw b kBase die) := by
  have hbf : ¬ (b.enabled = false) := by simp [hb]
  have hlen6 : ¬ (bw.length ≠ 6) := by simp [hlen]
  have hneg : ¬ ∃ w ∈ bw, w < 0 := not_exists_neg_of_nonneg hnn
  have hrn : ¬ ((clampBubbleToDie b (cleanDims die)).radius ≤ 0) := not_le.mpr hr
  have hmax : ∀ x : ℝ, (if x < 0 then (0 : ℝ) else x) = max 0 x :=
    fun x => ite_neg_zero_eq_max x
  simp only [applyBubblePhysics, bubbleSpecWeights, if_neg hbf, if_neg hlen6,
    if_neg hneg, if_neg hrn, hmax]
  exact fallback_guard_eq _ bw
    (mem_zipWith_nonneg (fun a v => le_max_left 0 _) bw (faceNorms ℝ))

/-- Witness for C4: a centred bubble of radius `1/4` inside the unit box,
with uniform base weights and no `k` override. -/
theorem applyBubblePhysics_formula_witness :
    ((⟨true, 1/4, ⟨0, 0, 0⟩⟩ : BubbleConfig ℝ).enabled = true ∧
      ([(1 : ℝ), 1, 1, 1, 1, 1]).length = 6 ∧
      (∀ x ∈ [(1 : ℝ), 1, 1, 1, 1, 1], 0 ≤ x) ∧
      0 < (clampBubbleToDie (⟨true, 1/4, ⟨0, 0, 0⟩⟩ : BubbleConfig ℝ)
        (cleanDims ⟨1, 1, 1⟩)).radius) ∧
    applyBubblePhysics [(1 : ℝ), 1, 1, 1, 1, 1]
        (some ⟨true, 1/4, ⟨0, 0, 0⟩⟩) none ⟨1, 1, 1⟩ =
      some (if ∀ x ∈ bubbleSpecWeights [(1 : ℝ), 1, 1, 1, 1, 1]
            ⟨true, 1/4, ⟨0, 0, 0⟩⟩ none ⟨1, 1, 1⟩, x ≤ 0
        then [(1 : ℝ), 1, 1, 1, 1, 1]
        else bubbleSpecWeights [(1 : ℝ), 1, 1, 1, 1, 1]
          ⟨true, 1/4, ⟨0, 0, 0⟩⟩ none ⟨1, 1, 1⟩) :=
  ⟨⟨rfl, rfl, by simp,
      by norm_num [clampBubbleToDie, cleanDims, clamp, max_def, min_def, abs]⟩,
    applyBubblePhysics_formula [(1 : ℝ), 1, 1, 1, 1, 1]
      ⟨true, 1/4, ⟨0, 0, 0⟩⟩ none ⟨1, 1, 1⟩ rfl rfl (by simp)
      (by norm_num [clampBubbleToDie, cleanDims, clamp, max_def, min_def, abs])⟩

/-! ### Claim C7: dimensions-to-weights round trip -/

/-- C7: for box dimensions with every edge at least `0.01` (so the cleaning
step is the identity) and a positive exponent, inverting
`weightsFromDimensions` with `dimensionsFromWeights` recovers the
dimensions exactly (exact real arithmetic). -/
theorem dims_weights_roundTrip (d : Dims ℝ) (e : ℝ)
    (hx : 1/100 ≤ d.lx) (hy : 1/100 ≤ d.ly) (hz : 1/100 ≤ d.lz)
    (he : 0 < e) :
    dimensionsFromWeights (weightsFromDimensions d e) e = some d := by
  have h100 : (0 : ℝ) < 1/100 := by norm_num
  have hxp : 0 < d.lx := lt_of_lt_of_le h100 hx
  have hyp : 0 < d.ly := lt_of_lt_of_le h100 hy
  have hzp : 0 < d.lz := lt_of_lt_of_le h100 hz
  have hcx : max d.lx (1/100) = d.lx := max_eq_left hx
  have hcy : max d.ly (1/100) = d.ly := max_eq_left hy
  have hcz : max d.lz (1/100) = d.lz := max_eq_left hz
  have hA1 : (0 : ℝ) < d.lx * d.lz := mul_pos hxp hzp
  have hA2 : (0 : ℝ) < d.ly * d.lz := mul_pos hyp hzp
  have hA3 : (0 : ℝ) < d.lx * d.ly := mul_pos hxp hyp
  have key : ∀ A : ℝ, 0 < A → (A ^ e) ^ ((1 : ℝ)/e) = A := by
    intro A hA
    rw [← Real.rpow_mul hA.le, mul_one_div, div_self he.ne', Real.rpow_one]
  simp only [weightsFromDimensions, cleanDims, hcx, hcy, hcz]
  have hlen : ¬ (([(d.lx * d.lz) ^ e, (d.ly * d.lz) ^ e, (d.lx * d.ly) ^ e,
      (d.lx * d.ly) ^ e, (d.ly * d.lz) ^ e, (d.lx * d.lz) ^ e] : List ℝ).length ≠ 6) := by
    simp
  have hpos : ¬ ∃ w ∈ ([(d.lx * d.lz) ^ e, (d.ly * d.lz) ^ e, (d.lx * d.ly) ^ e,
      (d.lx * d.ly) ^ e, (d.ly * d.lz) ^ e, (d.lx * d.lz) ^ e] : List ℝ), w ≤ 0 := by
    push_neg
    intro w hw
    simp only [List.mem_cons, List.not_mem_nil, or_false] at hw
    rcases hw with rfl | rfl | rfl | rfl | rfl | rfl
    · exact Real.rpow_pos_of_pos hA1 e
    · exact Real.rpow_pos_of_pos hA2 e
    · exact Real.rpow_pos_of_pos hA3 e
    · exact Real.rpow_pos_of_pos hA3 e
    · exact Real.rpow_pos_of_pos hA2 e
    · exact Real.rpow_pos_of_pos hA1 e
  simp only [dimensionsFromWeights, if_neg hlen, if_neg he.ne', if_neg hpos]
  simp only [List.getD_cons_zero, List.getD_cons_succ]
  rw [key _ hA1, key _ hA2, key _ hA3]
  rw [Real.sqrt_mul_self hA1.le, Real.sqrt_mul_self hA2.le,
    Real.sqrt_mul_self hA3.le]
  have harg : d.lx * d.ly * (d.lx * d.lz) / (d.ly * d.lz) = d.lx ^ 2 := by
    field_simp
    ring
  rw [harg, Real.sqrt_sq hxp.le]
  have hly : d.lx * d.ly / d.lx = d.ly := by
    rw [mul_comm, mul_div_assoc, div_self hxp.ne', mul_one]
  have hlz : d.lx * d.lz / d.lx = d.lz := by
    rw [mul_comm, mul_div_assoc, div_self hxp.ne', mul_one]
  rw [hly, hlz, max_eq_left hx, max_eq_left hy, max_eq_left hz]

/-- Witness for C7 at the unit box with exponent `1`. -/
theorem dims_weights_roundTrip_witness :
    ((1 : ℝ)/100 ≤ 1 ∧ (1 : ℝ)/100 ≤ 1 ∧ (1 : ℝ)/100 ≤ 1 ∧ (0 : ℝ) < 1) ∧
    dimensionsFromWeights (weightsFromDimensions ⟨1, 1, 1⟩ 1) 1 =
      some (⟨1, 1, 1⟩ : Dims ℝ) :=
  ⟨⟨by norm_num, by norm_num, by norm_num, by norm_num⟩,
    dims_weights_roundTrip ⟨1, 1, 1⟩ 1 (by norm_num) (by norm_num)
      (by norm_num) (by norm_num)⟩

end WeightedDice